import Mathlib

/-!
Shallow embedding of the build-time glue code in `doc/conf.py` of the
weldx repository: the `nitpick_ignore` parsing loop, the
`_copy_tut_files` tutorial staging helper and the
`_get_intersphinx_mapping` builder, together with theorems about their
behaviour.

Text is modelled at the ASCII level: a line of the ignore-list file is a
`List Char` (as produced by Python file iteration, so it may carry its
trailing newline), and Python's default whitespace set is restricted to
its ASCII part.
-/

/-- ASCII whitespace as recognised by Python's default `str.split` and
`str.strip` (the model restricts itself to ASCII input). -/
def isPySpace (c : Char) : Bool :=
  c = ' ' || c = '\t' || c = '\n' || c = '\x0b' || c = '\x0c' || c = '\r'

/-- Python `s.strip()`: remove leading and trailing whitespace. -/
def pyStrip (s : List Char) : List Char :=
  ((s.dropWhile isPySpace).reverse.dropWhile isPySpace).reverse

/-- Python `s.split(None, 1)`: discard leading whitespace, take the first
maximal run of non-whitespace as the first field, discard the following
whitespace run, and return everything after it (verbatim) as the second
field; fields that would be empty are not produced, so the result has
zero, one or two elements. -/
def splitNone1 (s : List Char) : List (List Char) :=
  let s1 := s.dropWhile isPySpace
  if s1 = [] then []
  else
    let tok := s1.takeWhile (fun c => !isPySpace c)
    let rest := (s1.dropWhile (fun c => !isPySpace c)).dropWhile isPySpace
    if rest = [] then [tok] else [tok, rest]

/-- Outcome of one iteration of the `nitpick_ignore` loop body on one
line: the line is skipped by the `continue`, appends one pair, or raises
a `ValueError` at the two-variable unpacking of `line.split(None, 1)`. -/
inductive LineResult where
  | skip
  | pair (p : List Char × List Char)
  | err
deriving DecidableEq, Repr

/-- The loop body of the `nitpick_ignore` loop in `doc/conf.py`:
`if line.strip() == "" or line.startswith("#"): continue`, then
`dtype, target = line.split(None, 1)`, then `target = target.strip()`. -/
def lineStep (line : List Char) : LineResult :=
  if pyStrip line = [] ∨ line.head? = some '#' then .skip
  else
    match splitNone1 line with
    | [d, t] => .pair (d, pyStrip t)
    | _ => .err

/-- The pair appended for a line that splits into two fields (junk value
on other lines, which `lineStep` never reports as a pair). -/
def linePair (line : List Char) : List Char × List Char :=
  match splitNone1 line with
  | [d, t] => (d, pyStrip t)
  | _ => ([], [])

/-- The `for line in fh` loop: process lines in order, accumulating
appended pairs; an erroring line aborts the loop, keeping the pairs
accumulated so far (`nitpick_ignore` is mutated in place).  The boolean
records whether the loop ran to completion. -/
def parseLoop : List (List Char) → List (List Char × List Char) →
    List (List Char × List Char) × Bool
  | [], acc => (acc, true)
  | l :: ls, acc =>
    match lineStep l with
    | .skip => parseLoop ls acc
    | .pair p => parseLoop ls (acc ++ [p])
    | .err => (acc, false)

/-- The two unhandled failure modes of the `nitpick_ignore` block:
`open("nitpick_ignore")` raising (file missing) and the unpacking of
`line.split(None, 1)` raising `ValueError`. -/
inductive LoadError where
  | fileNotFound
  | valueError
deriving DecidableEq, Repr

/-- The whole `nitpick_ignore` block of `doc/conf.py`:
`nitpick_ignore = []` followed by the parsing loop over the opened file.
The input is `none` when the file cannot be opened.  The first component
is the value of the `nitpick_ignore` list afterwards (partial when the
loop aborted), the second the error that escaped, if any. -/
def loadNitpickIgnore (file : Option (List (List Char))) :
    List (List Char × List Char) × Option LoadError :=
  let init : List (List Char × List Char) := []
  match file with
  | none => (init, some .fileNotFound)
  | some lines =>
    match parseLoop lines init with
    | (acc, true) => (acc, none)
    | (acc, false) => (acc, some .valueError)

/-- A non-blank, non-comment ignore-list line that splits into two
fields: optional leading whitespace, a first token (not introducing a
comment when it is the first character of the line), a separating
whitespace run, and a remainder starting with a non-whitespace
character. -/
def WellFormedLine (l : List Char) : Prop :=
  ∃ w1 d w2 r, l = w1 ++ d ++ w2 ++ r ∧
    (∀ c ∈ w1, isPySpace c = true) ∧
    d ≠ [] ∧ (∀ c ∈ d, isPySpace c = false) ∧
    (w1 = [] → d.head? ≠ some '#') ∧
    w2 ≠ [] ∧ (∀ c ∈ w2, isPySpace c = true) ∧
    (∃ a, r.head? = some a ∧ isPySpace a = false)

/-- fnmatch of the glob pattern that is a star followed by `ext` against
a file name, as `pathlib.Path.glob` uses for `*.ipynb` and `*.py`: the
star matches any (possibly empty) sequence of characters, so the pattern
matches exactly the names ending in `ext`. -/
def starGlobMatch (ext name : List Char) : Bool :=
  ext.isSuffixOf name

/-- The `_exts = ("*.ipynb", "*.py")` tuple of `_copy_tut_files`,
represented by the suffix each pattern requires. -/
def tutExts : List (List Char) :=
  [(".ipynb").toList, (".py").toList]

/-- The `tutorial_files` list built by `_copy_tut_files`: for each
pattern in order, all files of the source directory matching it.  A
source directory is a list of (name, contents) entries. -/
def tutorialFiles (src : List (List Char × List Char)) :
    List (List Char × List Char) :=
  tutExts.foldl (fun acc ext => acc ++ src.filter fun f => starGlobMatch ext f.1) []

/-- `shutil.copy(f, tutorials_dir)`: write the file's contents into the
destination directory under the file's own name, overwriting any
existing entry.  A destination directory maps names to contents. -/
def shutilCopy (f : List Char × List Char) (dst : List Char → Option (List Char)) :
    List Char → Option (List Char) :=
  fun n => if n = f.1 then some f.2 else dst n

/-- `_copy_tut_files` of `doc/conf.py`: copy every globbed tutorial file
into the destination directory. -/
def _copy_tut_files (src : List (List Char × List Char))
    (dst : List Char → Option (List Char)) : List Char → Option (List Char) :=
  (tutorialFiles src).foldl (fun d f => shutilCopy f d) dst

/-- Contents of the last directory entry with the given name, if any
(later copies overwrite earlier ones). -/
def lookupLast (fs : List (List Char × List Char)) (n : List Char) :
    Option (List Char) :=
  match fs with
  | [] => none
  | f :: t =>
    match lookupLast t n with
    | some c => some c
    | none => if n = f.1 then some f.2 else none

/-- `from lib import __version__ as v`: look the library up in an
environment mapping each importable library name to its version string,
raising `ModuleNotFoundError` when it is absent. -/
def pyImportVersion (env : String → Option String) (name : String) :
    Except String String :=
  match env name with
  | some v => .ok v
  | none => .error name

/-- `_get_intersphinx_mapping` of `doc/conf.py`: import the six version
strings in source order, then assemble the mapping of project name to
(base URL, optional inventory path).  Any failing import escapes; no
mapping is produced in that case. -/
def _get_intersphinx_mapping (env : String → Option String) :
    Except String (List (String × String × Option String)) := do
  let asdf_version ← pyImportVersion env "asdf"
  let matplotlib_version ← pyImportVersion env "matplotlib"
  let numpy_version ← pyImportVersion env "numpy"
  let pandas_version ← pyImportVersion env "pandas"
  let pint_version ← pyImportVersion env "pint"
  let scipy_version ← pyImportVersion env "scipy"
  return [
    ("python", "https://docs.python.org/3/", none),
    ("numpy", "https://numpy.org/doc/" ++ numpy_version.take 4, none),
    ("pandas", "https://pandas.pydata.org/pandas-docs/version/" ++ pandas_version ++ "/", none),
    ("xarray", "https://docs.xarray.dev/en/v2022.06.0/", none),
    ("scipy", "https://docs.scipy.org/doc/scipy-" ++ scipy_version ++ "/", none),
    ("matplotlib", "https://matplotlib.org/" ++ matplotlib_version, none),
    ("pint", "https://pint.readthedocs.io/en/" ++ pint_version, none),
    ("jsonschema", "https://python-jsonschema.readthedocs.io/en/stable/", none),
    ("asdf", "https://asdf.readthedocs.io/en/" ++ asdf_version ++ "/", none),
    ("networkx", "https://networkx.org/documentation/stable/", none),
    ("IPython", "https://ipython.readthedocs.io/en/stable/", none),
    ("k3d", "https://k3d-jupyter.org/", none)]

/-- The libraries whose version strings `_get_intersphinx_mapping`
imports. -/
def intersphinxLibs : List String :=
  ["asdf", "matplotlib", "numpy", "pandas", "pint", "scipy"]

/-! Generic helper lemmas about `takeWhile`, `dropWhile` and `pyStrip`. -/

theorem dropWhile_append_all {p : Char → Bool} {xs : List Char} (ys : List Char)
    (h : ∀ c ∈ xs, p c = true) :
    (xs ++ ys).dropWhile p = ys.dropWhile p := by
  induction xs with
  | nil => rfl
  | cons a t ih =>
    have ha : p a = true := h a (List.mem_cons_self a t)
    simp only [List.cons_append, List.dropWhile_cons, ha, if_true]
    exact ih fun c hc => h c (List.mem_cons_of_mem _ hc)

theorem takeWhile_append_all {p : Char → Bool} {xs : List Char} (ys : List Char)
    (h : ∀ c ∈ xs, p c = true) :
    (xs ++ ys).takeWhile p = xs ++ ys.takeWhile p := by
  induction xs with
  | nil => rfl
  | cons a t ih =>
    have ha : p a = true := h a (List.mem_cons_self a t)
    simp only [List.cons_append, List.takeWhile_cons, ha, if_true, List.cons.injEq,
      true_and]
    exact ih fun c hc => h c (List.mem_cons_of_mem _ hc)

theorem dropWhile_eq_self_of_head {p : Char → Bool} {l : List Char}
    (h : ∀ a, l.head? = some a → p a = false) : l.dropWhile p = l := by
  cases l with
  | nil => rfl
  | cons a t =>
    have := h a rfl
    simp [List.dropWhile_cons, this]

theorem takeWhile_eq_nil_of_head {p : Char → Bool} {l : List Char}
    (h : ∀ a, l.head? = some a → p a = false) : l.takeWhile p = [] := by
  cases l with
  | nil => rfl
  | cons a t =>
    have := h a rfl
    simp [List.takeWhile_cons, this]

theorem head?_dropWhile_false {p : Char → Bool} {l : List Char} {a : Char}
    (h : (l.dropWhile p).head? = some a) : p a = false := by
  induction l with
  | nil => simp [List.dropWhile] at h
  | cons b t ih =>
    by_cases hb : p b
    · rw [List.dropWhile_cons_of_pos hb] at h
      exact ih h
    · rw [List.dropWhile_cons_of_neg hb] at h
      simp only [List.head?_cons, Option.some.injEq] at h
      subst h
      exact Bool.eq_false_iff.mpr hb

theorem mem_of_mem_dropWhile {p : Char → Bool} {l : List Char} {c : Char}
    (h : c ∈ l.dropWhile p) : c ∈ l := by
  have hl := List.takeWhile_append_dropWhile (p := p) (l := l)
  rw [← hl]
  exact List.mem_append_right _ h

theorem pyStrip_eq_nil_iff {l : List Char} :
    pyStrip l = [] ↔ ∀ c ∈ l, isPySpace c = true := by
  unfold pyStrip
  rw [List.reverse_eq_nil_iff, List.dropWhile_eq_nil_iff]
  constructor
  · intro h c hc
    rcases (by
      have := List.takeWhile_append_dropWhile (p := isPySpace) (l := l)
      rw [← this] at hc
      exact List.mem_append.mp hc : c ∈ l.takeWhile isPySpace ∨ c ∈ l.dropWhile isPySpace) with
      h1 | h1
    · exact List.mem_takeWhile_imp h1
    · exact h c (List.mem_reverse.mpr h1)
  · intro h c hc
    exact h c (mem_of_mem_dropWhile (List.mem_reverse.mp hc))

theorem pyStrip_of_no_space {l : List Char}
    (h : ∀ c ∈ l, isPySpace c = false) : pyStrip l = l := by
  unfold pyStrip
  rw [dropWhile_eq_self_of_head (fun a ha => h a (List.mem_of_mem_head? ha)),
    dropWhile_eq_self_of_head (fun a ha => h a (List.mem_reverse.mp (List.mem_of_mem_head? ha))),
    List.reverse_reverse]

theorem pyStrip_idem (l : List Char) : pyStrip (pyStrip l) = pyStrip l := by
  unfold pyStrip
  set A := l.dropWhile isPySpace with hA
  set B := A.reverse.dropWhile isPySpace with hB
  have hBrev : B.reverse.dropWhile isPySpace = B.reverse := by
    apply dropWhile_eq_self_of_head
    intro a ha
    have hmemA : A.reverse = A.reverse.takeWhile isPySpace ++ B :=
      (List.takeWhile_append_dropWhile (p := isPySpace) (l := A.reverse)).symm
    have hArev : A = B.reverse ++ (A.reverse.takeWhile isPySpace).reverse := by
      have := congrArg List.reverse hmemA
      simpa using this
    have hAhead : A.head? = some a := by
      rw [hArev]
      cases hBr : B.reverse with
      | nil => rw [hBr] at ha; simp at ha
      | cons b bs =>
        rw [hBr] at ha
        simp only [List.head?_cons, Option.some.injEq] at ha
        subst ha
        simp
    exact head?_dropWhile_false (p := isPySpace) (l := l) (by rw [← hA]; exact hAhead)
  have hBfix : B.dropWhile isPySpace = B := by
    apply dropWhile_eq_self_of_head
    intro a ha
    exact head?_dropWhile_false (p := isPySpace) (l := A.reverse) (by rw [← hB]; exact ha)
  rw [hBrev, List.reverse_reverse, hBfix]

theorem head?_append_left {l r : List Char} {a : Char} (h : l.head? = some a) :
    (l ++ r).head? = some a := by
  cases l with
  | nil => simp at h
  | cons b t => simpa using h

theorem exists_head?_of_ne_nil {l : List Char} (h : l ≠ []) :
    ∃ a, l.head? = some a := by
  cases l with
  | nil => exact absurd rfl h
  | cons a t => exact ⟨a, rfl⟩

/-! Characterisation of `splitNone1` and `lineStep` on decomposed lines. -/

theorem splitNone1_decomp {w1 d w2 r : List Char}
    (hw1 : ∀ c ∈ w1, isPySpace c = true)
    (hd : d ≠ []) (hds : ∀ c ∈ d, isPySpace c = false)
    (hw2 : w2 ≠ []) (hw2s : ∀ c ∈ w2, isPySpace c = true)
    (hr : ∃ a, r.head? = some a ∧ isPySpace a = false) :
    splitNone1 (w1 ++ d ++ w2 ++ r) = [d, r] := by
  obtain ⟨ra, hra, hras⟩ := hr
  obtain ⟨da, hda⟩ := exists_head?_of_ne_nil hd
  have hdas : isPySpace da = false := hds da (List.mem_of_mem_head? hda)
  obtain ⟨wa, hwa⟩ := exists_head?_of_ne_nil hw2
  have hwas : isPySpace wa = true := hw2s wa (List.mem_of_mem_head? hwa)
  have hassoc : w1 ++ d ++ w2 ++ r = w1 ++ (d ++ (w2 ++ r)) := by
    simp [List.append_assoc]
  have hs1 : (w1 ++ d ++ w2 ++ r).dropWhile isPySpace = d ++ (w2 ++ r) := by
    rw [hassoc, dropWhile_append_all _ hw1]
    exact dropWhile_eq_self_of_head fun a ha => by
      rw [head?_append_left hda] at ha
      cases ha
      exact hdas
  have htok : (d ++ (w2 ++ r)).takeWhile (fun c => !isPySpace c) = d := by
    rw [takeWhile_append_all _ (fun c hc => by simp [hds c hc])]
    rw [takeWhile_eq_nil_of_head fun a ha => by
      rw [head?_append_left hwa] at ha
      cases ha
      simp [hwas]]
    simp
  have hrest1 : (d ++ (w2 ++ r)).dropWhile (fun c => !isPySpace c) = w2 ++ r := by
    rw [dropWhile_append_all _ (fun c hc => by simp [hds c hc])]
    exact dropWhile_eq_self_of_head fun a ha => by
      rw [head?_append_left hwa] at ha
      cases ha
      simp [hwas]
  have hrest : (w2 ++ r).dropWhile isPySpace = r := by
    rw [dropWhile_append_all _ hw2s]
    exact dropWhile_eq_self_of_head fun a ha => by
      rw [hra] at ha
      cases ha
      exact hras
  have hrne : r ≠ [] := by
    intro h
    rw [h] at hra
    simp at hra
  unfold splitNone1
  simp only [hs1, htok, hrest1, hrest]
  rw [if_neg (by simp [hd]), if_neg hrne]

theorem lineStep_decomp {w1 d w2 r : List Char}
    (hw1 : ∀ c ∈ w1, isPySpace c = true)
    (hd : d ≠ []) (hds : ∀ c ∈ d, isPySpace c = false)
    (hhash : w1 = [] → d.head? ≠ some '#')
    (hw2 : w2 ≠ []) (hw2s : ∀ c ∈ w2, isPySpace c = true)
    (hr : ∃ a, r.head? = some a ∧ isPySpace a = false) :
    lineStep (w1 ++ d ++ w2 ++ r) = .pair (d, pyStrip r) := by
  obtain ⟨da, hda⟩ := exists_head?_of_ne_nil hd
  have hdas : isPySpace da = false := hds da (List.mem_of_mem_head? hda)
  have hmemd : da ∈ w1 ++ d ++ w2 ++ r := by
    have : da ∈ d := List.mem_of_mem_head? hda
    simp [this]
  have hnb : pyStrip (w1 ++ d ++ w2 ++ r) ≠ [] := by
    intro h
    have := pyStrip_eq_nil_iff.mp h da hmemd
    rw [hdas] at this
    cases this
  have hnh : (w1 ++ d ++ w2 ++ r).head? ≠ some '#' := by
    intro h
    cases hw1e : w1 with
    | nil =>
      have hwhole : (w1 ++ d ++ w2 ++ r).head? = some da := by
        rw [hw1e]
        simp only [List.nil_append]
        exact head?_append_left (head?_append_left hda)
      rw [hwhole] at h
      injection h with h
      exact hhash hw1e (by rw [hda, h])
    | cons a t =>
      have haw : isPySpace a = true := by
        apply hw1
        rw [hw1e]
        exact List.mem_cons_self a t
      have hwhole : (w1 ++ d ++ w2 ++ r).head? = some a := by
        rw [hw1e]
        simp
      rw [hwhole] at h
      injection h with h
      rw [h] at haw
      simp [isPySpace] at haw
  unfold lineStep
  rw [if_neg (by
    rintro (h | h)
    · exact hnb h
    · exact hnh h)]
  rw [splitNone1_decomp hw1 hd hds hw2 hw2s hr]

theorem linePair_decomp {w1 d w2 r : List Char}
    (hw1 : ∀ c ∈ w1, isPySpace c = true)
    (hd : d ≠ []) (hds : ∀ c ∈ d, isPySpace c = false)
    (hw2 : w2 ≠ []) (hw2s : ∀ c ∈ w2, isPySpace c = true)
    (hr : ∃ a, r.head? = some a ∧ isPySpace a = false) :
    linePair (w1 ++ d ++ w2 ++ r) = (d, pyStrip r) := by
  unfold linePair
  rw [splitNone1_decomp hw1 hd hds hw2 hw2s hr]

theorem lineStep_of_wellFormed {l : List Char} (h : WellFormedLine l) :
    lineStep l = .pair (linePair l) := by
  obtain ⟨w1, d, w2, r, rfl, hw1, hd, hds, hhash, hw2, hw2s, hr⟩ := h
  rw [lineStep_decomp hw1 hd hds hhash hw2 hw2s hr,
    linePair_decomp hw1 hd hds hw2 hw2s hr]

theorem linePair_fields_of_wellFormed {l : List Char} (h : WellFormedLine l) :
    (linePair l).1 ≠ [] ∧ (∀ c ∈ (linePair l).1, isPySpace c = false) ∧
      pyStrip (linePair l).1 = (linePair l).1 ∧ pyStrip (linePair l).2 = (linePair l).2 := by
  obtain ⟨w1, d, w2, r, rfl, hw1, hd, hds, hhash, hw2, hw2s, hr⟩ := h
  rw [linePair_decomp hw1 hd hds hw2 hw2s hr]
  exact ⟨hd, hds, pyStrip_of_no_space hds, pyStrip_idem r⟩

theorem splitNone1_eq (s : List Char) :
    splitNone1 s =
      if s.dropWhile isPySpace = [] then []
      else if ((s.dropWhile isPySpace).dropWhile (fun c => !isPySpace c)).dropWhile
          isPySpace = [] then
        [(s.dropWhile isPySpace).takeWhile (fun c => !isPySpace c)]
      else
        [(s.dropWhile isPySpace).takeWhile (fun c => !isPySpace c),
          ((s.dropWhile isPySpace).dropWhile (fun c => !isPySpace c)).dropWhile isPySpace] :=
  rfl

theorem splitNone1_pair {s d t : List Char} (h : splitNone1 s = [d, t]) :
    s.dropWhile isPySpace ≠ [] ∧
      d = (s.dropWhile isPySpace).takeWhile (fun c => !isPySpace c) ∧
      t = ((s.dropWhile isPySpace).dropWhile (fun c => !isPySpace c)).dropWhile isPySpace := by
  rw [splitNone1_eq] at h
  split at h
  · cases h
  · rename_i hs1
    split at h
    · simp at h
    · simp only [List.cons.injEq, and_true] at h
      exact ⟨hs1, h.1.symm, h.2.symm⟩

/-- Every pair `lineStep` ever produces has a nonempty, whitespace-free
first field and an already-trimmed second field. -/
theorem lineStep_pair_shape {l : List Char} {p : List Char × List Char}
    (h : lineStep l = .pair p) :
    p.1 ≠ [] ∧ (∀ c ∈ p.1, isPySpace c = false) ∧ pyStrip p.2 = p.2 := by
  unfold lineStep at h
  split at h
  · cases h
  · split at h
    · rename_i d t heq
      injection h with h
      subst h
      obtain ⟨hs1, hd, ht⟩ := splitNone1_pair heq
      refine ⟨?_, ?_, pyStrip_idem _⟩
      · cases hs1c : l.dropWhile isPySpace with
        | nil => exact absurd hs1c hs1
        | cons a tl =>
          have haf : isPySpace a = false :=
            head?_dropWhile_false (l := l) (by rw [hs1c]; rfl)
          simp only [hd, hs1c]
          rw [List.takeWhile_cons_of_pos (by simp [haf])]
          simp
      · intro c hc
        simp only [hd] at hc
        have := List.mem_takeWhile_imp hc
        simpa using this
    · cases h

/-! Lemmas about the parsing loop. -/

theorem parseLoop_skip_middle (pre post : List (List Char)) {l : List Char}
    (h : lineStep l = .skip) (acc : List (List Char × List Char)) :
    parseLoop (pre ++ l :: post) acc = parseLoop (pre ++ post) acc := by
  induction pre generalizing acc with
  | nil => simp [parseLoop, h]
  | cons x xs ih =>
    cases hx : lineStep x <;> simp [parseLoop, hx, ih]

theorem parseLoop_err_of_mem {lines : List (List Char)} {l : List Char}
    (hmem : l ∈ lines) (herr : lineStep l = .err)
    (acc : List (List Char × List Char)) :
    (parseLoop lines acc).2 = false := by
  induction lines generalizing acc with
  | nil => cases hmem
  | cons x xs ih =>
    rcases List.mem_cons.mp hmem with h | h
    · subst h
      simp [parseLoop, herr]
    · cases hx : lineStep x
      · simpa [parseLoop, hx] using ih h acc
      · simpa [parseLoop, hx] using ih h _
      · simp [parseLoop, hx]

theorem parseLoop_all_pairs {lines : List (List Char)}
    (h : ∀ l ∈ lines, lineStep l = .pair (linePair l))
    (acc : List (List Char × List Char)) :
    parseLoop lines acc = (acc ++ lines.map linePair, true) := by
  induction lines generalizing acc with
  | nil => simp [parseLoop]
  | cons x xs ih =>
    have hx := h x (List.mem_cons_self x xs)
    simp [parseLoop, hx, ih (fun l hl => h l (List.mem_cons_of_mem _ hl))]

theorem parseLoop_mem_acc {lines : List (List Char)}
    {acc : List (List Char × List Char)} {p : List Char × List Char}
    (h : p ∈ (parseLoop lines acc).1) :
    p ∈ acc ∨ ∃ l ∈ lines, lineStep l = .pair p := by
  induction lines generalizing acc with
  | nil => exact Or.inl h
  | cons x xs ih =>
    rw [parseLoop] at h
    cases hx : lineStep x with
    | skip =>
      rw [hx] at h
      rcases ih h with h1 | ⟨l, hl, he⟩
      · exact Or.inl h1
      · exact Or.inr ⟨l, List.mem_cons_of_mem _ hl, he⟩
    | pair q =>
      rw [hx] at h
      rcases ih h with h1 | ⟨l, hl, he⟩
      · rcases List.mem_append.mp h1 with h2 | h2
        · exact Or.inl h2
        · have : p = q := by simpa using h2
          subst this
          exact Or.inr ⟨x, List.mem_cons_self x xs, hx⟩
      · exact Or.inr ⟨l, List.mem_cons_of_mem _ hl, he⟩
    | err =>
      rw [hx] at h
      exact Or.inl h

theorem splitNone1_token_trailing {d w : List Char}
    (hd : d ≠ []) (hds : ∀ c ∈ d, isPySpace c = false)
    (hws : ∀ c ∈ w, isPySpace c = true) :
    splitNone1 (d ++ w) = [d] := by
  obtain ⟨da, hda⟩ := exists_head?_of_ne_nil hd
  have hdas : isPySpace da = false := hds da (List.mem_of_mem_head? hda)
  have hs1 : (d ++ w).dropWhile isPySpace = d ++ w :=
    dropWhile_eq_self_of_head fun a ha => by
      rw [head?_append_left hda] at ha
      cases ha
      exact hdas
  have htok : (d ++ w).takeWhile (fun c => !isPySpace c) = d := by
    rw [takeWhile_append_all _ (fun c hc => by simp [hds c hc]),
      takeWhile_eq_nil_of_head fun a ha => by
        simp [hws a (List.mem_of_mem_head? ha)]]
    simp
  have hrest1 : (d ++ w).dropWhile (fun c => !isPySpace c) = w := by
    rw [dropWhile_append_all _ (fun c hc => by simp [hds c hc])]
    exact dropWhile_eq_self_of_head fun a ha => by
      simp [hws a (List.mem_of_mem_head? ha)]
  have hrest : w.dropWhile isPySpace = [] := List.dropWhile_eq_nil_iff.mpr hws
  rw [splitNone1_eq, hs1, hrest1, hrest, if_neg (by simp [hd]), if_pos rfl, htok]

theorem lineStep_err_token_trailing {d w : List Char}
    (hd : d ≠ []) (hds : ∀ c ∈ d, isPySpace c = false)
    (hhash : d.head? ≠ some '#')
    (hws : ∀ c ∈ w, isPySpace c = true) :
    lineStep (d ++ w) = .err := by
  obtain ⟨da, hda⟩ := exists_head?_of_ne_nil hd
  have hdas : isPySpace da = false := hds da (List.mem_of_mem_head? hda)
  have hnb : pyStrip (d ++ w) ≠ [] := by
    intro h
    have := pyStrip_eq_nil_iff.mp h da (List.mem_append_left _ (List.mem_of_mem_head? hda))
    rw [hdas] at this
    cases this
  have hnh : (d ++ w).head? ≠ some '#' := by
    rw [head?_append_left hda]
    intro h
    injection h with h
    rw [← h] at hhash
    exact hhash hda
  unfold lineStep
  rw [if_neg (by
    rintro (h | h)
    · exact hnb h
    · exact hnh h)]
  rw [splitNone1_token_trailing hd hds hws]

/-! Lemmas lifting line behaviour to `loadNitpickIgnore`. -/

theorem loadNitpickIgnore_err_of_mem {lines : List (List Char)} {l : List Char}
    (hmem : l ∈ lines) (herr : lineStep l = .err) :
    (loadNitpickIgnore (some lines)).2 = some LoadError.valueError := by
  have h2 := parseLoop_err_of_mem hmem herr []
  simp only [loadNitpickIgnore]
  rcases hp : parseLoop lines [] with ⟨a, b⟩
  rw [hp] at h2
  simp only at h2
  subst h2
  simp

theorem loadNitpickIgnore_mem {lines : List (List Char)} {p : List Char × List Char}
    (h : p ∈ (loadNitpickIgnore (some lines)).1) :
    ∃ l ∈ lines, lineStep l = .pair p := by
  have h1 : (loadNitpickIgnore (some lines)).1 = (parseLoop lines []).1 := by
    simp only [loadNitpickIgnore]
    rcases hp : parseLoop lines [] with ⟨a, b⟩
    cases b <;> simp
  rw [h1] at h
  rcases parseLoop_mem_acc h with h2 | h2
  · simp at h2
  · exact h2

theorem loadNitpickIgnore_all {lines : List (List Char)}
    (h : ∀ l ∈ lines, lineStep l = .pair (linePair l)) :
    loadNitpickIgnore (some lines) = (lines.map linePair, none) := by
  simp only [loadNitpickIgnore]
  rw [parseLoop_all_pairs h []]
  simp

/-! Lemmas about the tutorial-file staging model. -/

theorem tutorialFiles_eq (src : List (List Char × List Char)) :
    tutorialFiles src =
      src.filter (fun f => starGlobMatch (".ipynb").toList f.1) ++
        src.filter (fun f => starGlobMatch (".py").toList f.1) := by
  simp [tutorialFiles, tutExts]

theorem mem_tutorialFiles {src : List (List Char × List Char)}
    {f : List Char × List Char} :
    f ∈ tutorialFiles src ↔
      f ∈ src ∧ (starGlobMatch (".ipynb").toList f.1 ||
        starGlobMatch (".py").toList f.1) = true := by
  rw [tutorialFiles_eq]
  simp only [List.mem_append, List.mem_filter, Bool.or_eq_true]
  constructor
  · rintro (⟨h1, h2⟩ | ⟨h1, h2⟩)
    · exact ⟨h1, Or.inl h2⟩
    · exact ⟨h1, Or.inr h2⟩
  · rintro ⟨h1, h2 | h2⟩
    · exact Or.inl ⟨h1, h2⟩
    · exact Or.inr ⟨h1, h2⟩

theorem foldl_copy_lookup (fs : List (List Char × List Char))
    (dst : List Char → Option (List Char)) (n : List Char) :
    (fs.foldl (fun d f => shutilCopy f d) dst) n =
      match lookupLast fs n with
      | some c => some c
      | none => dst n := by
  induction fs generalizing dst with
  | nil => simp [lookupLast]
  | cons f t ih =>
    simp only [List.foldl_cons, lookupLast]
    rw [ih]
    cases lookupLast t n with
    | some c => simp
    | none =>
      by_cases hn : n = f.1 <;> simp [shutilCopy, hn]


theorem lookupLast_isSome_of_mem {fs : List (List Char × List Char)} {n c : List Char}
    (h : (n, c) ∈ fs) : lookupLast fs n ≠ none := by
  induction fs with
  | nil => cases h
  | cons f t ih =>
    rw [lookupLast]
    rcases List.mem_cons.mp h with h1 | h1
    · cases hl : lookupLast t n with
      | some c2 => simp
      | none =>
        have hn : n = f.1 := by rw [← h1]
        simp [hn]
    · cases hl : lookupLast t n with
      | some c2 => simp
      | none => exact absurd hl (ih h1)

theorem lookupLast_mem {fs : List (List Char × List Char)} {n c : List Char}
    (h : lookupLast fs n = some c) : (n, c) ∈ fs := by
  induction fs with
  | nil => rw [lookupLast] at h; cases h
  | cons f t ih =>
    rw [lookupLast] at h
    cases hl : lookupLast t n with
    | some c2 =>
      rw [hl] at h
      injection h with h
      subst h
      exact List.mem_cons_of_mem _ (ih hl)
    | none =>
      rw [hl] at h
      by_cases hn : n = f.1
      · rw [if_pos hn] at h
        injection h with h
        subst h
        have hf : (n, f.2) = f := by rw [hn]
        rw [hf]
        exact List.mem_cons_self f t
      · rw [if_neg hn] at h
        cases h

theorem lookupLast_eq_none {fs : List (List Char × List Char)} {n : List Char}
    (h : ∀ c, (n, c) ∉ fs) : lookupLast fs n = none := by
  cases hl : lookupLast fs n with
  | none => rfl
  | some c => exact absurd (lookupLast_mem hl) (h c)

theorem lookupLast_eq_some {fs : List (List Char × List Char)} {n c : List Char}
    (hmem : (n, c) ∈ fs) (huniq : ∀ c2, (n, c2) ∈ fs → c2 = c) :
    lookupLast fs n = some c := by
  cases hl : lookupLast fs n with
  | none => exact absurd hl (lookupLast_isSome_of_mem hmem)
  | some c2 => rw [huniq c2 (lookupLast_mem hl)]

/-! Claim theorems. -/

/-- Claim C1: for every ignore-list file whose lines are all well-formed
(non-blank, not starting the raw line with the comment character, and
containing a whitespace separator between two fields), parsing yields
exactly one (category, target) pair per line, in file order, with no
error, and each pair's two fields carry no leading or trailing
whitespace. -/
theorem nitpick_parse_wellformed_file (lines : List (List Char))
    (h : ∀ l ∈ lines, WellFormedLine l) :
    loadNitpickIgnore (some lines) = (lines.map linePair, none) ∧
    ∀ p ∈ lines.map linePair, pyStrip p.1 = p.1 ∧ pyStrip p.2 = p.2 := by
  constructor
  · exact loadNitpickIgnore_all fun l hl => lineStep_of_wellFormed (h l hl)
  · intro p hp
    rcases List.mem_map.mp hp with ⟨l, hl, rfl⟩
    have hf := linePair_fields_of_wellFormed (h l hl)
    exact ⟨hf.2.2.1, hf.2.2.2⟩

/-- Witness for C1 at the one-line file "a b". -/
theorem nitpick_parse_wellformed_file_witness :
    WellFormedLine ['a', ' ', 'b'] ∧
    loadNitpickIgnore (some [['a', ' ', 'b']]) = ([(['a'], ['b'])], none) := by
  have hwf : WellFormedLine ['a', ' ', 'b'] :=
    ⟨[], ['a'], [' '], ['b'], rfl, by decide, by decide, by decide, by decide,
      by decide, by decide, 'b', rfl, by decide⟩
  refine ⟨hwf, ?_⟩
  have h := (nitpick_parse_wellformed_file [['a', ' ', 'b']] (by
    intro l hl
    rw [List.mem_singleton] at hl
    subst hl
    exact hwf)).1
  rw [h]
  decide

/-- Claim C2: a non-blank, non-comment line containing no whitespace at
all (hence no separator) makes parsing fail with a `ValueError`, and the
accumulated result never contains a malformed pair: every accumulated
pair has a nonempty, whitespace-free first field and a trimmed second
field. -/
theorem nitpick_parse_no_separator_fails (lines : List (List Char)) (l : List Char)
    (hmem : l ∈ lines) (hne : l ≠ []) (hhash : l.head? ≠ some '#')
    (hns : ∀ c ∈ l, isPySpace c = false) :
    (loadNitpickIgnore (some lines)).2 = some LoadError.valueError ∧
    ∀ p ∈ (loadNitpickIgnore (some lines)).1,
      p.1 ≠ [] ∧ (∀ c ∈ p.1, isPySpace c = false) ∧ pyStrip p.2 = p.2 := by
  have herr : lineStep l = .err := by
    have h := lineStep_err_token_trailing (w := []) hne hns hhash
      (by intro c hc; cases hc)
    simpa using h
  refine ⟨loadNitpickIgnore_err_of_mem hmem herr, ?_⟩
  intro p hp
  obtain ⟨l2, _, hstep⟩ := loadNitpickIgnore_mem hp
  exact lineStep_pair_shape hstep

/-- Witness for C2 at the one-line file "ab". -/
theorem nitpick_parse_no_separator_fails_witness :
    (loadNitpickIgnore (some [['a', 'b']])).2 = some LoadError.valueError :=
  (nitpick_parse_no_separator_fails [['a', 'b']] ['a', 'b']
    (by decide) (by decide) (by decide) (by decide)).1

/-- Claim C3: every blank (empty or whitespace-only) line and every line
whose raw first character is the comment character contributes nothing:
removing it from the file leaves the parse result (pairs and error
status) unchanged, wherever in the file it occurs. -/
theorem nitpick_parse_skips_blank_and_comment (pre post : List (List Char)) (l : List Char)
    (h : pyStrip l = [] ∨ l.head? = some '#') :
    loadNitpickIgnore (some (pre ++ l :: post)) = loadNitpickIgnore (some (pre ++ post)) := by
  have hs : lineStep l = .skip := by
    unfold lineStep
    rw [if_pos h]
  simp only [loadNitpickIgnore]
  rw [parseLoop_skip_middle pre post hs]

/-- Witness for C3: dropping the comment line "#x" from a two-line file. -/
theorem nitpick_parse_skips_blank_and_comment_witness :
    loadNitpickIgnore (some ([] ++ ['#', 'x'] :: [['a', ' ', 'b']])) =
      loadNitpickIgnore (some ([] ++ [['a', ' ', 'b']])) :=
  nitpick_parse_skips_blank_and_comment [] [['a', ' ', 'b']] ['#', 'x'] (Or.inr rfl)

/-- Claim C4: a non-blank, non-comment line is split at the first
whitespace run only: the category field is the first
whitespace-delimited token and the target field is the entire remainder
of the line (which may itself contain internal whitespace), trimmed at
both ends. -/
theorem nitpick_parse_splits_on_first_whitespace (w1 d w2 r : List Char)
    (hw1 : ∀ c ∈ w1, isPySpace c = true)
    (hd : d ≠ []) (hds : ∀ c ∈ d, isPySpace c = false)
    (hhash : w1 = [] → d.head? ≠ some '#')
    (hw2 : w2 ≠ []) (hw2s : ∀ c ∈ w2, isPySpace c = true)
    (hr : ∃ a, r.head? = some a ∧ isPySpace a = false) :
    lineStep (w1 ++ d ++ w2 ++ r) = LineResult.pair (d, pyStrip r) :=
  lineStep_decomp hw1 hd hds hhash hw2 hw2s hr

/-- Witness for C4 at the line "a b c": the target keeps its internal
whitespace. -/
theorem nitpick_parse_splits_on_first_whitespace_witness :
    lineStep ([] ++ ['a'] ++ [' '] ++ ['b', ' ', 'c']) =
      LineResult.pair (['a'], ['b', ' ', 'c']) := by
  have h := nitpick_parse_splits_on_first_whitespace [] ['a'] [' '] ['b', ' ', 'c']
    (by decide) (by decide) (by decide) (by decide) (by decide) (by decide)
    ⟨'b', rfl, by decide⟩
  rw [h]
  decide

/-- Claim C5: when the ignore-list file cannot be opened, the
configuration load fails with the file-open error and the accumulated
ignore list remains empty. -/
theorem nitpick_missing_file_empty_list :
    loadNitpickIgnore none = ([], some LoadError.fileNotFound) :=
  rfl

/-- Claim C10: a line consisting of a single token followed only by
trailing whitespace also makes parsing fail, even though it does contain
whitespace: the split discards the trailing run and produces a single
field. -/
theorem nitpick_trailing_whitespace_line_fails (lines : List (List Char)) (d w : List Char)
    (hd : d ≠ []) (hds : ∀ c ∈ d, isPySpace c = false)
    (hhash : d.head? ≠ some '#')
    (hw : w ≠ []) (hws : ∀ c ∈ w, isPySpace c = true)
    (hmem : (d ++ w) ∈ lines) :
    lineStep (d ++ w) = LineResult.err ∧
    (loadNitpickIgnore (some lines)).2 = some LoadError.valueError := by
  have herr := lineStep_err_token_trailing hd hds hhash hws
  exact ⟨herr, loadNitpickIgnore_err_of_mem hmem herr⟩

/-- Witness for C10 at the one-line file "abc \n". -/
theorem nitpick_trailing_whitespace_line_fails_witness :
    lineStep (['a', 'b', 'c'] ++ [' ', '\n']) = LineResult.err ∧
    (loadNitpickIgnore (some [['a', 'b', 'c'] ++ [' ', '\n']])).2 =
      some LoadError.valueError :=
  nitpick_trailing_whitespace_line_fails [['a', 'b', 'c'] ++ [' ', '\n']]
    ['a', 'b', 'c'] [' ', '\n'] (by decide) (by decide) (by decide) (by decide)
    (by decide) (by decide)

/-- Counterexample to claim C9 as stated: for the line " #x y" (leading
whitespace, first non-whitespace character the comment character) the
loop does not skip, but the produced pair is ("#x", "y") — its category
field is the whole first token "#x", not the one-character string "#". -/
theorem comment_detection_raw_line_counterexample :
    lineStep [' ', '#', 'x', ' ', 'y'] = LineResult.pair (['#', 'x'], ['y']) ∧
    (['#', 'x'] : List Char) ≠ ['#'] := by
  decide

/-- Claim C9 (amended): comment detection applies to the raw, untrimmed
line, so a line whose first character is whitespace but whose first
non-whitespace character is the comment character is NOT skipped as a
comment; it is split like any other line, so any pair it produces has a
category field beginning with the comment character and a target field
already trimmed. -/
theorem comment_detection_raw_line_amended (l w1 rest : List Char)
    (hw1 : w1 ≠ []) (hws : ∀ c ∈ w1, isPySpace c = true)
    (hl : l = w1 ++ rest) (hr : rest.head? = some '#') :
    lineStep l ≠ LineResult.skip ∧
    ∀ p, lineStep l = LineResult.pair p → p.1.head? = some '#' ∧ pyStrip p.2 = p.2 := by
  obtain ⟨wa, hwa⟩ := exists_head?_of_ne_nil hw1
  have hwas : isPySpace wa = true := hws wa (List.mem_of_mem_head? hwa)
  cases rest with
  | nil => cases hr
  | cons a rest2 =>
  injection hr with hr
  subst hr
  subst hl
  have hcond : ¬(pyStrip (w1 ++ '#' :: rest2) = [] ∨
      (w1 ++ '#' :: rest2).head? = some '#') := by
    rintro (h | h)
    · have hsp := pyStrip_eq_nil_iff.mp h '#'
        (List.mem_append_right _ (List.mem_cons_self _ _))
      exact absurd hsp (by decide)
    · rw [head?_append_left hwa] at h
      injection h with h
      rw [h] at hwas
      exact absurd hwas (by decide)
  have hdrop : (w1 ++ '#' :: rest2).dropWhile isPySpace = '#' :: rest2 := by
    rw [dropWhile_append_all _ hws]
    exact List.dropWhile_cons_of_neg (by decide)
  constructor
  · intro h
    unfold lineStep at h
    rw [if_neg hcond] at h
    split at h
    · cases h
    · cases h
  · intro p hp
    unfold lineStep at hp
    rw [if_neg hcond] at hp
    split at hp
    · rename_i d t heq
      injection hp with hp
      subst hp
      obtain ⟨hs1, hd, ht⟩ := splitNone1_pair heq
      refine ⟨?_, pyStrip_idem _⟩
      rw [hd, hdrop, List.takeWhile_cons_of_pos (by decide)]
      rfl
    · cases hp

/-- Witness for C9 (amended) at the line " #x y". -/
theorem comment_detection_raw_line_amended_witness :
    lineStep [' ', '#', 'x', ' ', 'y'] ≠ LineResult.skip :=
  (comment_detection_raw_line_amended [' ', '#', 'x', ' ', 'y'] [' ']
    ['#', 'x', ' ', 'y'] (by decide) (by decide) rfl rfl).1

/-- Claim C6: if any of the six libraries whose version strings build
the cross-reference URL mapping (asdf, matplotlib, numpy, pandas, pint,
scipy) is not importable, building the mapping fails with the import
error and no mapping — not even a partial one — is produced. -/
theorem intersphinx_missing_import_fails (env : String → Option String)
    (h : ∃ lib ∈ intersphinxLibs, env lib = none) :
    (_get_intersphinx_mapping env).toOption = none := by
  obtain ⟨lib, hmem, hnone⟩ := h
  simp only [intersphinxLibs, List.mem_cons, List.not_mem_nil, or_false] at hmem
  unfold _get_intersphinx_mapping pyImportVersion
  rcases hmem with rfl | rfl | rfl | rfl | rfl | rfl <;>
    cases h1 : env "asdf" <;> cases h2 : env "matplotlib" <;> cases h3 : env "numpy" <;>
      cases h4 : env "pandas" <;> cases h5 : env "pint" <;> cases h6 : env "scipy" <;>
        simp_all [Except.toOption, Bind.bind, Except.bind]

/-- Witness for C6: an environment in which nothing is importable. -/
theorem intersphinx_missing_import_fails_witness :
    (_get_intersphinx_mapping (fun _ => none)).toOption = none :=
  intersphinx_missing_import_fails (fun _ => none)
    ⟨"asdf", by simp [intersphinxLibs], rfl⟩

/-- Claim C7: staging copies exactly the source files whose names match
one of the two glob patterns: a destination entry whose name matches
neither pattern or names no source file is left unchanged, and every
matching source name ends up in the destination with contents taken from
the source directory. -/
theorem copy_tut_files_exact (src : List (List Char × List Char))
    (dst : List Char → Option (List Char)) (n : List Char) :
    ((starGlobMatch (".ipynb").toList n || starGlobMatch (".py").toList n) = false ∨
        (∀ c, (n, c) ∉ src) →
      _copy_tut_files src dst n = dst n) ∧
    ((starGlobMatch (".ipynb").toList n || starGlobMatch (".py").toList n) = true →
      ∀ c0, (n, c0) ∈ src →
        ∃ c, _copy_tut_files src dst n = some c ∧ (n, c) ∈ src) := by
  constructor
  · intro h
    have hnone : lookupLast (tutorialFiles src) n = none := by
      apply lookupLast_eq_none
      intro c hc
      rw [mem_tutorialFiles] at hc
      rcases h with h | h
      · rw [hc.2] at h
        cases h
      · exact h c hc.1
    unfold _copy_tut_files
    rw [foldl_copy_lookup, hnone]
  · intro hm c0 hc0
    have hmemt : (n, c0) ∈ tutorialFiles src := mem_tutorialFiles.mpr ⟨hc0, hm⟩
    cases hl : lookupLast (tutorialFiles src) n with
    | none => exact absurd hl (lookupLast_isSome_of_mem hmemt)
    | some c =>
      refine ⟨c, ?_, (mem_tutorialFiles.mp (lookupLast_mem hl)).1⟩
      unfold _copy_tut_files
      rw [foldl_copy_lookup, hl]

/-- Witness for C7: in a source directory with a.ipynb, b.py and c.txt,
the non-matching c.txt is not copied into an empty destination. -/
theorem copy_tut_files_exact_witness :
    _copy_tut_files
      [(("a.ipynb").toList, ("A").toList), (("b.py").toList, ("B").toList),
        (("c.txt").toList, ("C").toList)]
      (fun _ => none) (("c.txt").toList) = none :=
  (copy_tut_files_exact
    [(("a.ipynb").toList, ("A").toList), (("b.py").toList, ("B").toList),
      (("c.txt").toList, ("C").toList)]
    (fun _ => none) (("c.txt").toList)).1 (Or.inl (by decide))

/-- Claim C8: when the destination already contains a file with the same
name as a matched source file, staging succeeds and overwrites it with
the source contents, and running the staging twice leaves the
destination exactly as running it once. -/
theorem copy_tut_files_overwrite_idem (src : List (List Char × List Char))
    (dst : List Char → Option (List Char)) (n c old : List Char)
    (hold : dst n = some old)
    (hmem : (n, c) ∈ src)
    (hmatch : (starGlobMatch (".ipynb").toList n || starGlobMatch (".py").toList n) = true)
    (huniq : ∀ c2, (n, c2) ∈ src → c2 = c) :
    _copy_tut_files src dst n = some c ∧
    ∀ m, _copy_tut_files src (_copy_tut_files src dst) m = _copy_tut_files src dst m := by
  have hmt : (n, c) ∈ tutorialFiles src := mem_tutorialFiles.mpr ⟨hmem, hmatch⟩
  have hut : ∀ c2, (n, c2) ∈ tutorialFiles src → c2 = c := fun c2 hc2 =>
    huniq c2 (mem_tutorialFiles.mp hc2).1
  have hsome := lookupLast_eq_some hmt hut
  constructor
  · unfold _copy_tut_files
    rw [foldl_copy_lookup, hsome]
  · intro m
    unfold _copy_tut_files
    rw [foldl_copy_lookup, foldl_copy_lookup]
    cases lookupLast (tutorialFiles src) m with
    | some c2 => rfl
    | none => rfl

/-- Witness for C8: overwriting an existing a.ipynb in the destination. -/
theorem copy_tut_files_overwrite_idem_witness :
    _copy_tut_files [(("a.ipynb").toList, ("NEW").toList)]
      (fun m => if m = ("a.ipynb").toList then some (("OLD").toList) else none)
      (("a.ipynb").toList) = some (("NEW").toList) :=
  (copy_tut_files_overwrite_idem [(("a.ipynb").toList, ("NEW").toList)]
    (fun m => if m = ("a.ipynb").toList then some (("OLD").toList) else none)
    (("a.ipynb").toList) (("NEW").toList) (("OLD").toList)
    (by decide) (by decide) (by decide)
    (by intro c2 hc2; simp only [List.mem_singleton] at hc2; injection hc2 with h1 h2)).1
